import Mathlib

/-!
Shallow embedding of the two core components of the Lentilens source
(src/index.tsx): the frame-sampling pipeline `extractFrames` and the
tilt-driven render loop `animate` of `LenticularViewer`.  JavaScript
numbers are modelled as rationals; a possibly non-finite reported video
duration is modelled as `Option ℚ`, with `none` standing for NaN or an
infinity.
-/

namespace Lentilens

/-- Frame raster dimensions before flooring, from the `onloadedmetadata`
handler of `extractFrames`: if either native side exceeds `maxDim = 1024`,
both sides are scaled by a common factor so that the larger side becomes
1024 (`height = (height/width)*maxDim; width = maxDim` when
`width > height`, symmetrically otherwise); otherwise the native sides
are kept. -/
def scaledDims (nw nh : ℕ) : ℚ × ℚ :=
  if 1024 < nw ∨ 1024 < nh then
    if nh < nw then ((1024 : ℚ), (nh : ℚ) / (nw : ℚ) * 1024)
    else ((nw : ℚ) / (nh : ℚ) * 1024, (1024 : ℚ))
  else ((nw : ℚ), (nh : ℚ))

/-- Final canvas dimensions: `canvas.width = Math.floor(width)` and
`canvas.height = Math.floor(height)` applied to `scaledDims`. -/
def computeDims (nw nh : ℕ) : ℕ × ℕ :=
  ((⌊(scaledDims nw nh).1⌋).toNat, (⌊(scaledDims nw nh).2⌋).toNat)

/-- Duration guard from the `onloadeddata` handler:
`const duration = video.duration || 0;`
`const safeDuration = (Number.isFinite(duration) && duration > 0) ? duration : 3;`
A non-finite reported duration (`none`) or a non-positive finite one
falls back to 3. -/
def safeDuration : Option ℚ → ℚ
  | some d => if 0 < d then d else 3
  | none => 3

/-- `const processDuration = Math.min(safeDuration, 5);` — the sampling
window, capped at 5 time-units. -/
def processDuration (d : Option ℚ) : ℚ := min (safeDuration d) 5

/-- `const interval = processDuration / frameCount;` -/
def interval (d : Option ℚ) (frameCount : ℕ) : ℚ :=
  processDuration d / (frameCount : ℚ)

/-- `const time = i * interval;` — the seek time requested at loop
iteration `i`. -/
def seekTime (d : Option ℚ) (frameCount i : ℕ) : ℚ :=
  (i : ℚ) * interval d frameCount

/-- Outcome of the per-iteration wait promise: it either resolves at some
time or rejects with an error. -/
inductive WaitOutcome where
  | resolved (time : ℚ)
  | rejected (err : String)
deriving DecidableEq

/-- The per-iteration seek wait of `extractFrames`: the promise executor
installs a 200 ms timeout whose callback resolves the promise, and a
`seeked` listener that clears the timeout and resolves the promise; there
is no reject path.  `arrival` is the time at which the `seeked` event
fires, `none` if it never fires. -/
def seekWait (arrival : Option ℚ) : WaitOutcome :=
  match arrival with
  | some t => if t < 200 then .resolved t else .resolved 200
  | none => .resolved 200

/-- A still-image frame produced by one loop iteration: it is drawn at
the current canvas dimensions and carries an opaque encoded blob. -/
structure Frame where
  width : ℕ
  height : ℕ
  blobId : ℕ
deriving DecidableEq

/-- One iteration of the sampling loop after the seek request: wait for
the seek (bounded by the timeout), draw at the canvas dimensions, encode;
`canvas.toBlob` may yield no blob (`enc = none`), in which case nothing
is appended.  The iteration faults only if the wait rejects. -/
def iterationResult (arrival : Option ℚ) (cw ch : ℕ) (enc : Option ℕ) :
    Except String (Option Frame) :=
  match seekWait arrival with
  | .resolved _ => .ok (enc.map fun b => Frame.mk cw ch b)
  | .rejected e => .error e

/-- The sampling loop `for (let i = 0; i < frameCount; i++)` of
`extractFrames`: frames are accumulated in order; an iteration that
yields a blob appends one frame, an iteration that yields none appends
nothing, and a faulting iteration aborts the loop. -/
def sampleLoop (cw ch : ℕ) (arrivals : ℕ → Option ℚ) (encode : ℕ → Option ℕ) :
    ℕ → Except String (List Frame)
  | 0 => .ok []
  | n + 1 =>
    match sampleLoop cw ch arrivals encode n with
    | .ok fs =>
      match iterationResult (arrivals n) cw ch (encode n) with
      | .ok (some f) => .ok (fs ++ [f])
      | .ok none => .ok fs
      | .error e => .error e
    | .error e => .error e

/-- Observable resource/settlement actions of `extractFrames`. -/
inductive ExtractAction where
  | removeVideo
  | revokeUrl
  | resolveResult
  | rejectError
deriving DecidableEq

/-- The `cleanup` closure: remove the temporary video element from the
document body, then revoke the object URL of the source file. -/
def cleanupActions : List ExtractAction := [.removeVideo, .revokeUrl]

/-- Action trace of one `extractFrames` run, by exit path: the `onerror`
handler calls `cleanup` then rejects; the loop's `catch` calls `cleanup`
then rejects; successful completion calls `cleanup` then resolves. -/
def extractTrace (mediaError : Bool) (loopResult : Except String (List Frame)) :
    List ExtractAction :=
  if mediaError then cleanupActions ++ [.rejectError]
  else
    match loopResult with
    | .ok _ => cleanupActions ++ [.resolveResult]
    | .error _ => cleanupActions ++ [.rejectError]

/-- Value delivered by one `extractFrames` run: the frame list on
success, nothing on a failed run. -/
def extractResult (mediaError : Bool) (loopResult : Except String (List Frame)) :
    Option (List Frame) :=
  if mediaError then none
  else
    match loopResult with
    | .ok fs => some fs
    | .error _ => none

/-- JavaScript `Math.round`: round half toward positive infinity,
`Math.round(x) = Math.floor(x + 0.5)`. -/
def jsRound (q : ℚ) : ℤ := ⌊q + 1 / 2⌋

/-- Progress value reported after iteration `i`:
`Math.round(((i + 1) / frameCount) * 100)`. -/
def progressValue (frameCount i : ℕ) : ℤ :=
  jsRound (((i : ℚ) + 1) / (frameCount : ℚ) * 100)

/-- One smoothing step of the render loop:
`newTilt = currentTilt + (targetTilt - currentTilt) * 0.1`. -/
def smoothTilt (target current : ℚ) : ℚ :=
  current + (target - current) * (1 / 10)

/-- The smoothed tilt after `n` render ticks with the raw tilt held at
`target`, starting from `s0`. -/
def smoothSeq (target s0 : ℚ) : ℕ → ℚ
  | 0 => s0
  | n + 1 => smoothTilt target (smoothSeq target s0 n)

/-- Frame selection of the render loop:
`frameIndex = Math.min(len - 1, Math.max(0, Math.floor(normTilt * len)))`
with `normTilt = (newTilt + 1) / 2`. -/
def frameIndex (frameCount : ℕ) (t : ℚ) : ℤ :=
  min ((frameCount : ℤ) - 1) (max 0 ⌊(t + 1) / 2 * (frameCount : ℚ)⌋)

/-! ## Helper lemmas -/

theorem safeDuration_pos (d : Option ℚ) : 0 < safeDuration d := by
  rcases d with _ | x
  · norm_num [safeDuration]
  · by_cases h : 0 < x
    · simp [safeDuration, h]
    · simp [safeDuration, h]

theorem processDuration_pos (d : Option ℚ) : 0 < processDuration d :=
  lt_min (safeDuration_pos d) (by norm_num)

/-! ## Claims -/

/-- C1: the sampling window is the reported duration when it is finite
and strictly positive, otherwise 3, capped at 5; the i-th seek is
requested at time `i * window / N`; for a finite duration `0 < D ≤ 5` the
k-th seek time is `k * D / N`; and no requested seek time exceeds the
window. -/
theorem seek_schedule_correct (d : Option ℚ) (N i : ℕ)
    (hN : 1 ≤ N) (hi : i < N) :
    seekTime d N i = (i : ℚ) * (processDuration d / N) ∧
    (∀ D : ℚ, d = some D → 0 < D → processDuration d = min D 5) ∧
    (∀ D : ℚ, d = some D → 0 < D → D ≤ 5 →
      seekTime d N i = (i : ℚ) * D / N) ∧
    (d = none → processDuration d = 3) ∧
    (∀ D : ℚ, d = some D → D ≤ 0 → processDuration d = 3) ∧
    processDuration d ≤ 5 ∧
    seekTime d N i ≤ processDuration d := by
  have hN0 : (0 : ℚ) < (N : ℚ) := by exact_mod_cast hN
  have hw0 : (0 : ℚ) ≤ processDuration d := (processDuration_pos d).le
  refine ⟨rfl, ?_, ?_, ?_, ?_, min_le_right _ _, ?_⟩
  · intro D hD hpos
    subst hD
    simp [processDuration, safeDuration, if_pos hpos]
  · intro D hD hpos hle
    subst hD
    simp [seekTime, interval, processDuration, safeDuration, if_pos hpos,
      min_eq_left hle, mul_div_assoc]
  · intro h
    subst h
    norm_num [processDuration, safeDuration]
  · intro D hD hle
    subst hD
    have h : ¬ 0 < D := not_lt.mpr hle
    norm_num [processDuration, safeDuration, if_neg h]
  · have hiq : (i : ℚ) ≤ (N : ℚ) := by exact_mod_cast hi.le
    have step : (i : ℚ) * (processDuration d / N) ≤
        (N : ℚ) * (processDuration d / N) :=
      mul_le_mul_of_nonneg_right hiq (div_nonneg hw0 hN0.le)
    calc seekTime d N i = (i : ℚ) * (processDuration d / N) := rfl
      _ ≤ (N : ℚ) * (processDuration d / N) := step
      _ = processDuration d := by field_simp

/-- Witness for C1 at duration 2, frame count 45, iteration 44. -/
theorem seek_schedule_correct_witness :
    (1 ≤ 45 ∧ 44 < 45) ∧
    seekTime (some 2) 45 44 ≤ processDuration (some 2) :=
  ⟨⟨by decide, by decide⟩,
    (seek_schedule_correct (some 2) 45 44 (by decide) (by decide)).2.2.2.2.2.2⟩

/-- C2: for every frame count at least 1 and tilt in [-1, 1], the render
tick selects `clamp(floor(((t + 1) / 2) * frameCount), 0, frameCount - 1)`,
which is a valid index into the texture sequence; tilt -1 yields index 0
and tilt 1 yields index `frameCount - 1`. -/
theorem frameIndex_in_range (frameCount : ℕ) (t : ℚ)
    (hc : 1 ≤ frameCount) (hlo : -1 ≤ t) (hhi : t ≤ 1) :
    frameIndex frameCount t =
      min ((frameCount : ℤ) - 1) (max 0 ⌊(t + 1) / 2 * (frameCount : ℚ)⌋) ∧
    0 ≤ frameIndex frameCount t ∧
    frameIndex frameCount t < (frameCount : ℤ) ∧
    frameIndex frameCount (-1) = 0 ∧
    frameIndex frameCount 1 = (frameCount : ℤ) - 1 := by
  have hc1 : (1 : ℤ) ≤ (frameCount : ℤ) := by exact_mod_cast hc
  refine ⟨rfl, ?_, ?_, ?_, ?_⟩
  · exact le_min (by omega) (le_max_left _ _)
  · exact (min_le_left _ _).trans_lt (by omega)
  · have h0 : ((-1 : ℚ) + 1) / 2 * (frameCount : ℚ) = 0 := by ring
    rw [frameIndex, h0]
    norm_num
    omega
  · have h1 : ((1 : ℚ) + 1) / 2 * (frameCount : ℚ) = ((frameCount : ℤ) : ℚ) := by
      push_cast; ring
    rw [frameIndex, h1, Int.floor_intCast,
      max_eq_right (by positivity), min_eq_left (by omega)]

/-- Witness for C2 at frame count 45 and tilt 1/2. -/
theorem frameIndex_in_range_witness :
    ((1 : ℕ) ≤ 45 ∧ (-1 : ℚ) ≤ 1 / 2 ∧ (1 / 2 : ℚ) ≤ 1) ∧
    (0 ≤ frameIndex 45 (1 / 2) ∧ frameIndex 45 (1 / 2) < (45 : ℤ) ∧
      frameIndex 45 (-1) = 0 ∧ frameIndex 45 1 = (45 : ℤ) - 1) :=
  ⟨⟨by decide, by norm_num, by norm_num⟩,
    (frameIndex_in_range 45 (1 / 2) (by decide) (by norm_num) (by norm_num)).2⟩

/-- C3: the tilt-to-frame-index mapping is monotone: a smaller tilt in
[-1, 1] never selects a later frame than a larger one. -/
theorem frameIndex_monotone (frameCount : ℕ) (t1 t2 : ℚ)
    (hc : 1 ≤ frameCount) (hlo : -1 ≤ t1) (h12 : t1 < t2) (hhi : t2 ≤ 1) :
    frameIndex frameCount t1 ≤ frameIndex frameCount t2 := by
  have hfloor : ⌊(t1 + 1) / 2 * (frameCount : ℚ)⌋ ≤
      ⌊(t2 + 1) / 2 * (frameCount : ℚ)⌋ := by
    apply Int.floor_le_floor
    have h12le : t1 ≤ t2 := h12.le
    gcongr
  exact min_le_min le_rfl (max_le_max le_rfl hfloor)

/-- Witness for C3 at frame count 45, tilts 0 and 1/2. -/
theorem frameIndex_monotone_witness :
    ((1 : ℕ) ≤ 45 ∧ (-1 : ℚ) ≤ 0 ∧ (0 : ℚ) < 1 / 2 ∧ (1 / 2 : ℚ) ≤ 1) ∧
    frameIndex 45 0 ≤ frameIndex 45 (1 / 2) :=
  ⟨⟨by decide, by norm_num, by norm_num, by norm_num⟩,
    frameIndex_monotone 45 0 (1 / 2) (by decide) (by norm_num) (by norm_num)
      (by norm_num)⟩

theorem computeDims_of_le {nw nh : ℕ} (hw : nw ≤ 1024) (hh : nh ≤ 1024) :
    computeDims nw nh = (nw, nh) := by
  have hcond : ¬ (1024 < nw ∨ 1024 < nh) := by omega
  simp [computeDims, scaledDims, hcond]

theorem computeDims_wide {nw nh : ℕ} (hgt : 1024 < nw) (hlt : nh < nw) :
    computeDims nw nh = (1024, (⌊(nh : ℚ) / (nw : ℚ) * 1024⌋).toNat) := by
  rw [computeDims, scaledDims, if_pos (Or.inl hgt), if_pos hlt]
  norm_num
  decide

theorem computeDims_tall {nw nh : ℕ} (hgt : 1024 < nh) (hle : nw ≤ nh) :
    computeDims nw nh = ((⌊(nw : ℚ) / (nh : ℚ) * 1024⌋).toNat, 1024) := by
  rw [computeDims, scaledDims, if_pos (Or.inr hgt), if_neg (by omega)]
  norm_num
  decide

theorem floor_scale_le_1024 {a b : ℕ} (hab : a ≤ b) (hb : 0 < b) :
    (⌊(a : ℚ) / (b : ℚ) * 1024⌋).toNat ≤ 1024 := by
  have hb0 : (0 : ℚ) < (b : ℚ) := by exact_mod_cast hb
  have hd1 : (a : ℚ) / (b : ℚ) ≤ 1 := by
    rw [div_le_one hb0]
    exact_mod_cast hab
  have hx : (a : ℚ) / (b : ℚ) * 1024 ≤ 1024 := by nlinarith
  have hfl : ⌊(a : ℚ) / (b : ℚ) * 1024⌋ ≤ (1024 : ℤ) := by
    have := Int.floor_le_floor hx
    simpa using this
  omega

theorem floor_scale_pos {a b : ℕ} (hb : 0 < b) (h : b ≤ 1024 * a) :
    0 < (⌊(a : ℚ) / (b : ℚ) * 1024⌋).toNat := by
  have hb0 : (0 : ℚ) < (b : ℚ) := by exact_mod_cast hb
  have h1 : (1 : ℚ) ≤ (a : ℚ) / (b : ℚ) * 1024 := by
    rw [div_mul_eq_mul_div, le_div_iff₀ hb0, one_mul]
    have : (b : ℚ) ≤ 1024 * (a : ℚ) := by exact_mod_cast h
    linarith
  have hfl : (1 : ℤ) ≤ ⌊(a : ℚ) / (b : ℚ) * 1024⌋ := Int.le_floor.mpr (by
    push_cast
    exact h1)
  omega

/-- C4 counterexample: a source with native dimensions 2048 x 1 scales to
output dimensions 1024 x 0 — the floored height is 0, not a positive
integer, refuting the claim as stated. -/
theorem computeDims_zero_height :
    computeDims 2048 1 = (1024, 0) ∧ ¬ 0 < (computeDims 2048 1).2 := by
  have h : computeDims 2048 1 = (1024, 0) := by
    rw [computeDims_wide (by norm_num) (by norm_num)]
    norm_num
  exact ⟨h, by simp [h]⟩

/-- C4 (amended): for a source with positive native dimensions, the
output equals the native dimensions when both are at most 1024;
otherwise both are floored scalings by the common factor that makes the
larger side exactly 1024; both outputs are at most 1024, and both are
positive whenever the larger native side is at most 1024 times the
smaller (for more extreme aspect ratios the smaller output side floors
to 0). -/
theorem computeDims_spec (nw nh : ℕ) (hw : 0 < nw) (hh : 0 < nh) :
    (computeDims nw nh).1 ≤ 1024 ∧ (computeDims nw nh).2 ≤ 1024 ∧
    (nw ≤ 1024 → nh ≤ 1024 → computeDims nw nh = (nw, nh)) ∧
    (∃ f : ℚ, 0 < f ∧
      (computeDims nw nh).1 = (⌊(nw : ℚ) * f⌋).toNat ∧
      (computeDims nw nh).2 = (⌊(nh : ℚ) * f⌋).toNat) ∧
    ((1024 < nw ∨ 1024 < nh) →
      max (computeDims nw nh).1 (computeDims nw nh).2 = 1024) ∧
    (max nw nh ≤ 1024 * min nw nh →
      0 < (computeDims nw nh).1 ∧ 0 < (computeDims nw nh).2) := by
  by_cases hbig : 1024 < nw ∨ 1024 < nh
  · by_cases hlt : nh < nw
    · have hgtw : 1024 < nw := by omega
      have heq := computeDims_wide hgtw hlt
      rw [heq]
      have hT : (⌊(nh : ℚ) / (nw : ℚ) * 1024⌋).toNat ≤ 1024 :=
        floor_scale_le_1024 hlt.le (by omega)
      refine ⟨by norm_num, hT, ?_, ?_, ?_, ?_⟩
      · intro h1 _
        omega
      · refine ⟨1024 / (nw : ℚ), by positivity, ?_, ?_⟩
        · have hs : (nw : ℚ) * (1024 / (nw : ℚ)) = 1024 := by
            field_simp
          rw [hs]
          norm_num
          decide
        · have hs : (nh : ℚ) * (1024 / (nw : ℚ)) = (nh : ℚ) / (nw : ℚ) * 1024 := by
            ring
          rw [hs]
      · intro _
        omega
      · intro hratio
        have hmx : max nw nh = nw := by omega
        have hmn : min nw nh = nh := by omega
        rw [hmx, hmn] at hratio
        exact ⟨by norm_num, floor_scale_pos (by omega) hratio⟩
    · have hle : nw ≤ nh := by omega
      have hgth : 1024 < nh := by omega
      have heq := computeDims_tall hgth hle
      rw [heq]
      have hT : (⌊(nw : ℚ) / (nh : ℚ) * 1024⌋).toNat ≤ 1024 :=
        floor_scale_le_1024 hle (by omega)
      refine ⟨hT, by norm_num, ?_, ?_, ?_, ?_⟩
      · intro _ h2
        omega
      · refine ⟨1024 / (nh : ℚ), by positivity, ?_, ?_⟩
        · have hs : (nw : ℚ) * (1024 / (nh : ℚ)) = (nw : ℚ) / (nh : ℚ) * 1024 := by
            ring
          rw [hs]
        · have hs : (nh : ℚ) * (1024 / (nh : ℚ)) = 1024 := by
            field_simp
          rw [hs]
          norm_num
          decide
      · intro _
        omega
      · intro hratio
        have hmx : max nw nh = nh := by omega
        have hmn : min nw nh = nw := by omega
        rw [hmx, hmn] at hratio
        exact ⟨floor_scale_pos (by omega) hratio, by norm_num⟩
  · push_neg at hbig
    have heq := computeDims_of_le hbig.1 hbig.2
    rw [heq]
    refine ⟨hbig.1, hbig.2, fun _ _ => rfl, ?_, ?_, fun _ => ⟨hw, hh⟩⟩
    · exact ⟨1, one_pos, by simp, by simp⟩
    · intro h
      omega

/-- Witness for the amended C4 at native dimensions 2000 x 500. -/
theorem computeDims_spec_witness :
    (0 < 2000 ∧ 0 < 500) ∧
    ((computeDims 2000 500).1 ≤ 1024 ∧ (computeDims 2000 500).2 ≤ 1024) :=
  ⟨⟨by decide, by decide⟩,
    ⟨(computeDims_spec 2000 500 (by decide) (by decide)).1,
      (computeDims_spec 2000 500 (by decide) (by decide)).2.1⟩⟩

theorem iterationResult_ok (arrival : Option ℚ) (cw ch : ℕ) (enc : Option ℕ) :
    iterationResult arrival cw ch enc = .ok (enc.map fun b => Frame.mk cw ch b) := by
  rcases arrival with _ | t
  · rfl
  · by_cases h : t < 200
    · simp [iterationResult, seekWait, h]
    · simp [iterationResult, seekWait, h]

theorem sampleLoop_ok_aux (cw ch : ℕ) (arr : ℕ → Option ℚ) (enc : ℕ → Option ℕ) :
    ∀ N : ℕ, ∃ fs : List Frame, sampleLoop cw ch arr enc N = .ok fs ∧
      fs.length ≤ N ∧ ∀ f ∈ fs, f.width = cw ∧ f.height = ch := by
  intro N
  induction N with
  | zero => exact ⟨[], rfl, by simp, by simp⟩
  | succ n ih =>
    obtain ⟨fs, hok, hlen, hall⟩ := ih
    rcases henc : enc n with _ | b
    · refine ⟨fs, ?_, hlen.trans (Nat.le_succ n), hall⟩
      simp [sampleLoop, hok, iterationResult_ok, henc]
    · refine ⟨fs ++ [Frame.mk cw ch b], ?_, ?_, ?_⟩
      · simp [sampleLoop, hok, iterationResult_ok, henc]
      · simp
        omega
      · intro f hf
        rcases List.mem_append.mp hf with h | h
        · exact hall f h
        · simp at h
          subst h
          exact ⟨rfl, rfl⟩

/-- C5: for every requested frame count at least 1, the sampling loop
completes without aborting even when some encodings yield no blob; the
returned frame sequence has length at most the requested count, and
every returned frame was drawn at the same canvas width and height. -/
theorem sampleLoop_partial_frames (N cw ch : ℕ) (arr : ℕ → Option ℚ)
    (enc : ℕ → Option ℕ) (hN : 1 ≤ N) :
    ∃ fs : List Frame, sampleLoop cw ch arr enc N = .ok fs ∧
      fs.length ≤ N ∧ ∀ f ∈ fs, f.width = cw ∧ f.height = ch :=
  sampleLoop_ok_aux cw ch arr enc N

/-- Witness for C5: two iterations where only the first encoding yields
a blob. -/
theorem sampleLoop_partial_frames_witness :
    (1 ≤ 2) ∧
    ∃ fs : List Frame,
      sampleLoop 10 20 (fun _ => none) (fun i => if i = 0 then some 7 else none) 2 =
        .ok fs ∧
      fs.length ≤ 2 ∧ ∀ f ∈ fs, f.width = 10 ∧ f.height = 20 :=
  ⟨by decide,
    sampleLoop_partial_frames 2 10 20 (fun _ => none)
      (fun i => if i = 0 then some 7 else none) (by decide)⟩

theorem smoothSeq_closed (n : ℕ) : smoothSeq 1 0 n = 1 - (9 / 10 : ℚ) ^ n := by
  induction n with
  | zero => simp [smoothSeq]
  | succ k ih =>
    simp only [smoothSeq, smoothTilt, ih]
    ring

/-- C6: the render tick updates the smoothed tilt by
`smoothed + (raw - smoothed) * 0.1`; with the raw value held at 1
starting from 0, the smoothed value is 0.1 after one tick, equals
`1 - 0.9 ^ 10` (within 0.01 of 0.65) after ten ticks, increases strictly
monotonically, and never reaches or exceeds the raw value. -/
theorem smooth_damping_correct :
    (∀ r s : ℚ, smoothTilt r s = s + (r - s) * (1 / 10)) ∧
    smoothSeq 1 0 1 = 1 / 10 ∧
    smoothSeq 1 0 10 = 1 - (9 / 10 : ℚ) ^ 10 ∧
    |smoothSeq 1 0 10 - 65 / 100| < 1 / 100 ∧
    (∀ n : ℕ, smoothSeq 1 0 n < smoothSeq 1 0 (n + 1)) ∧
    (∀ n : ℕ, smoothSeq 1 0 n < 1) := by
  refine ⟨fun r s => rfl, by norm_num [smoothSeq, smoothTilt],
    smoothSeq_closed 10, ?_, ?_, ?_⟩
  · rw [smoothSeq_closed, abs_lt]
    constructor <;> norm_num
  · intro n
    rw [smoothSeq_closed, smoothSeq_closed]
    have h0 : (0 : ℚ) < (9 / 10 : ℚ) ^ n := by positivity
    have h1 : (9 / 10 : ℚ) ^ (n + 1) < (9 / 10 : ℚ) ^ n := by
      calc (9 / 10 : ℚ) ^ (n + 1) = (9 / 10 : ℚ) ^ n * (9 / 10) := by ring
      _ < (9 / 10 : ℚ) ^ n * 1 := by nlinarith
      _ = (9 / 10 : ℚ) ^ n := mul_one _
    linarith
  · intro n
    rw [smoothSeq_closed]
    have h0 : (0 : ℚ) < (9 / 10 : ℚ) ^ n := by positivity
    linarith

/-- C7: the per-iteration seek wait always resolves — at the seeked
event when it fires before the 200 ms timeout, at the timeout otherwise
— never later than 200 ms, never rejects, and the iteration then
proceeds to capture whatever frame is currently visible; a seek timeout
never aborts the run and never raises an error. -/
theorem seek_timeout_resolves (arrival : Option ℚ) :
    (∃ t : ℚ, seekWait arrival = .resolved t ∧ t ≤ 200) ∧
    (∀ e : String, seekWait arrival ≠ .rejected e) ∧
    seekWait none = .resolved 200 ∧
    (∀ cw ch : ℕ, ∀ enc : Option ℕ,
      iterationResult arrival cw ch enc = .ok (enc.map fun b => Frame.mk cw ch b)) := by
  refine ⟨?_, ?_, rfl, fun cw ch enc => iterationResult_ok arrival cw ch enc⟩
  · rcases arrival with _ | t
    · exact ⟨200, rfl, le_refl _⟩
    · by_cases h : t < 200
      · exact ⟨t, by simp [seekWait, h], h.le⟩
      · exact ⟨200, by simp [seekWait, h], le_refl _⟩
  · intro e
    rcases arrival with _ | t
    · simp [seekWait]
    · simp only [seekWait]
      split <;> simp

/-- C8: on every exit path of `extractFrames` — success, an exception in
the sampling loop, or a media load error — the temporary video element
is removed and the object URL revoked exactly once, the cleanup precedes
the settlement, and no result is delivered on a failed run. -/
theorem cleanup_every_exit (me : Bool) (lr : Except String (List Frame)) :
    (extractTrace me lr).count .removeVideo = 1 ∧
    (extractTrace me lr).count .revokeUrl = 1 ∧
    extractTrace me lr = cleanupActions ++
      [if extractResult me lr = none then ExtractAction.rejectError
       else ExtractAction.resolveResult] ∧
    (extractResult me lr = none ↔ me = true ∨ ∃ e, lr = .error e) := by
  cases me with
  | true =>
    cases lr with
    | error e =>
      refine ⟨by simp [extractTrace, cleanupActions],
        by simp [extractTrace, cleanupActions],
        by simp [extractTrace, extractResult, cleanupActions],
        by simp [extractResult]⟩
    | ok fs =>
      refine ⟨by simp [extractTrace, cleanupActions],
        by simp [extractTrace, cleanupActions],
        by simp [extractTrace, extractResult, cleanupActions],
        by simp [extractResult]⟩
  | false =>
    cases lr with
    | error e =>
      refine ⟨by simp [extractTrace, cleanupActions],
        by simp [extractTrace, cleanupActions],
        by simp [extractTrace, extractResult, cleanupActions], ?_⟩
      simp [extractResult]
    | ok fs =>
      refine ⟨by simp [extractTrace, cleanupActions],
        by simp [extractTrace, cleanupActions],
        by simp [extractTrace, extractResult, cleanupActions],
        by simp [extractResult]⟩

/-- C9: the progress value reported after iteration `i` is
`round((i + 1) / N * 100)`; the reported values are monotonically
non-decreasing, lie in 0..100, and the final one is exactly 100. -/
theorem progress_report_correct (N i j : ℕ) (hN : 1 ≤ N)
    (hi : i < N) (hj : j < N) (hij : i ≤ j) :
    progressValue N i ≤ progressValue N j ∧
    0 ≤ progressValue N i ∧
    progressValue N i ≤ 100 ∧
    progressValue N (N - 1) = 100 := by
  have hN0 : (0 : ℚ) < (N : ℚ) := by
    have h : 0 < N := hN
    exact_mod_cast h
  refine ⟨?_, ?_, ?_, ?_⟩
  · unfold progressValue jsRound
    apply Int.floor_le_floor
    have h1 : ((i : ℚ) + 1) / (N : ℚ) ≤ ((j : ℚ) + 1) / (N : ℚ) := by
      have hij2 : (i : ℚ) ≤ (j : ℚ) := by exact_mod_cast hij
      gcongr
    linarith
  · unfold progressValue jsRound
    apply Int.le_floor.mpr
    push_cast
    have h0 : (0 : ℚ) ≤ ((i : ℚ) + 1) / (N : ℚ) * 100 := by positivity
    linarith
  · unfold progressValue jsRound
    have h1 : ((i : ℚ) + 1) / (N : ℚ) ≤ 1 := by
      rw [div_le_one hN0]
      exact_mod_cast Nat.succ_le_of_lt hi
    have hlt : ((i : ℚ) + 1) / (N : ℚ) * 100 + 1 / 2 < 101 := by nlinarith
    have hfl := Int.floor_lt.mpr (show ((i : ℚ) + 1) / (N : ℚ) * 100 + 1 / 2 <
      ((101 : ℤ) : ℚ) by push_cast; linarith)
    omega
  · unfold progressValue jsRound
    have hx : ((N - 1 : ℕ) : ℚ) + 1 = (N : ℚ) := by
      have h1 : ((N - 1 : ℕ) : ℚ) = (N : ℚ) - 1 := by
        push_cast [Nat.cast_sub hN]
        ring
      rw [h1]
      ring
    rw [hx, div_self hN0.ne', one_mul]
    norm_num

/-- Witness for C9 at frame count 45, iterations 0 and 44. -/
theorem progress_report_correct_witness :
    (1 ≤ 45 ∧ 0 < 45 ∧ 44 < 45 ∧ 0 ≤ 44) ∧
    (progressValue 45 0 ≤ progressValue 45 44 ∧
      0 ≤ progressValue 45 0 ∧
      progressValue 45 0 ≤ 100 ∧
      progressValue 45 (45 - 1) = 100) :=
  ⟨⟨by decide, by decide, by decide, by decide⟩,
    progress_report_correct 45 0 44 (by decide) (by decide) (by decide) (by decide)⟩

/-- C10: for every frame count at least 1 and frame position
`i < frameCount`, a tilt `t` in [-1, 1] selects index `i` exactly when
`t` lies in the band `[2 i / frameCount - 1, 2 (i + 1) / frameCount - 1)`
or `t = 1` and `i` is the last index; every index is selected by some
tilt, so the mapping is surjective onto the valid index range. -/
theorem frameIndex_partition (frameCount i : ℕ) (t : ℚ)
    (hc : 1 ≤ frameCount) (hi : i < frameCount) (hlo : -1 ≤ t) (hhi : t ≤ 1) :
    (frameIndex frameCount t = (i : ℤ) ↔
      ((2 * (i : ℚ) / (frameCount : ℚ) - 1 ≤ t ∧
          t < 2 * ((i : ℚ) + 1) / (frameCount : ℚ) - 1) ∨
        (t = 1 ∧ i = frameCount - 1))) ∧
    ∃ s : ℚ, -1 ≤ s ∧ s ≤ 1 ∧ frameIndex frameCount s = (i : ℤ) := by
  have hc0 : (0 : ℚ) < (frameCount : ℚ) := by
    have h : 0 < frameCount := hc
    exact_mod_cast h
  have hiq : (i : ℚ) < (frameCount : ℚ) := by exact_mod_cast hi
  have hiZ : (i : ℤ) ≤ (frameCount : ℤ) - 1 := by
    have h : (i : ℤ) < (frameCount : ℤ) := by exact_mod_cast hi
    omega
  have key : ∀ u : ℚ, -1 ≤ u → u ≤ 1 →
      (frameIndex frameCount u = (i : ℤ) ↔
        ((2 * (i : ℚ) / (frameCount : ℚ) - 1 ≤ u ∧
            u < 2 * ((i : ℚ) + 1) / (frameCount : ℚ) - 1) ∨
          (u = 1 ∧ i = frameCount - 1))) := by
    intro u hu1 hu2
    have hx0 : 0 ≤ (u + 1) / 2 * (frameCount : ℚ) := by
      have h1 : (0 : ℚ) ≤ (u + 1) / 2 := by linarith
      exact mul_nonneg h1 hc0.le
    have hfl0 : 0 ≤ ⌊(u + 1) / 2 * (frameCount : ℚ)⌋ := Int.floor_nonneg.mpr hx0
    have hmax : max 0 ⌊(u + 1) / 2 * (frameCount : ℚ)⌋ =
        ⌊(u + 1) / 2 * (frameCount : ℚ)⌋ := max_eq_right hfl0
    have hxc : (u + 1) / 2 * (frameCount : ℚ) ≤ (frameCount : ℚ) := by
      have h1 : (u + 1) / 2 ≤ 1 := by linarith
      calc (u + 1) / 2 * (frameCount : ℚ) ≤ 1 * (frameCount : ℚ) :=
        mul_le_mul_of_nonneg_right h1 hc0.le
      _ = (frameCount : ℚ) := one_mul _
    have hrw : (u + 1) / 2 * (frameCount : ℚ) = (u + 1) * (frameCount : ℚ) / 2 := by
      ring
    have hA : (2 * (i : ℚ) / (frameCount : ℚ) - 1 ≤ u) ↔
        ((i : ℚ) ≤ (u + 1) / 2 * (frameCount : ℚ)) := by
      rw [sub_le_iff_le_add, div_le_iff₀ hc0, hrw,
        le_div_iff₀ (by norm_num : (0 : ℚ) < 2)]
      constructor
      · intro h
        linarith
      · intro h
        linarith
    have hB : (u < 2 * ((i : ℚ) + 1) / (frameCount : ℚ) - 1) ↔
        ((u + 1) / 2 * (frameCount : ℚ) < (i : ℚ) + 1) := by
      rw [lt_sub_iff_add_lt, lt_div_iff₀ hc0, hrw,
        div_lt_iff₀ (by norm_num : (0 : ℚ) < 2)]
      constructor
      · intro h
        linarith
      · intro h
        linarith
    constructor
    · intro hEq
      rw [frameIndex, hmax] at hEq
      by_cases hle : ⌊(u + 1) / 2 * (frameCount : ℚ)⌋ ≤ (frameCount : ℤ) - 1
      · rw [min_eq_right hle] at hEq
        have hbounds : ((i : ℤ) : ℚ) ≤ (u + 1) / 2 * (frameCount : ℚ) ∧
            (u + 1) / 2 * (frameCount : ℚ) < (i : ℤ) + 1 :=
          Int.floor_eq_iff.mp hEq
        left
        refine ⟨hA.mpr ?_, hB.mpr ?_⟩
        · exact_mod_cast hbounds.1
        · have h2 := hbounds.2
          push_cast at h2
          exact h2
      · push_neg at hle
        rw [min_eq_left hle.le] at hEq
        have hieq : i = frameCount - 1 := by omega
        have hcle : ((frameCount : ℤ) : ℚ) ≤ (u + 1) / 2 * (frameCount : ℚ) :=
          Int.le_floor.mp (by omega)
        have hxeq : (u + 1) / 2 * (frameCount : ℚ) = (frameCount : ℚ) := by
          push_cast at hcle
          linarith
        have hu : u = 1 := by
          have h2 : ((u + 1) / 2) * (frameCount : ℚ) = 1 * (frameCount : ℚ) := by
            rw [hxeq, one_mul]
          have h3 : (u + 1) / 2 = 1 := mul_right_cancel₀ (ne_of_gt hc0) h2
          linarith
        exact Or.inr ⟨hu, hieq⟩
    · intro h
      rcases h with ⟨h1, h2⟩ | ⟨hu, hieq⟩
      · have hfl : ⌊(u + 1) / 2 * (frameCount : ℚ)⌋ = (i : ℤ) := by
          rw [Int.floor_eq_iff]
          constructor
          · exact_mod_cast hA.mp h1
          · push_cast
            exact hB.mp h2
        rw [frameIndex, hmax, hfl]
        exact min_eq_right hiZ
      · subst hu
        have hxe : ((1 : ℚ) + 1) / 2 * (frameCount : ℚ) = ((frameCount : ℤ) : ℚ) := by
          push_cast
          ring
        rw [frameIndex, hxe, Int.floor_intCast,
          max_eq_right (by omega : (0 : ℤ) ≤ (frameCount : ℤ)),
          min_eq_left (by omega : (frameCount : ℤ) - 1 ≤ (frameCount : ℤ))]
        omega
  refine ⟨key t hlo hhi, ⟨2 * (i : ℚ) / (frameCount : ℚ) - 1, ?_, ?_, ?_⟩⟩
  · have h0 : (0 : ℚ) ≤ 2 * (i : ℚ) / (frameCount : ℚ) := by positivity
    linarith
  · rw [sub_le_iff_le_add, div_le_iff₀ hc0]
    linarith
  · apply (key (2 * (i : ℚ) / (frameCount : ℚ) - 1) ?_ ?_).mpr
    · left
      refine ⟨le_refl _, ?_⟩
      rw [sub_lt_sub_iff_right, div_lt_div_iff₀ hc0 hc0]
      nlinarith
    · have h0 : (0 : ℚ) ≤ 2 * (i : ℚ) / (frameCount : ℚ) := by positivity
      linarith
    · rw [sub_le_iff_le_add, div_le_iff₀ hc0]
      linarith

/-- Witness for C10 at frame count 45, index 33, tilt 1/2. -/
theorem frameIndex_partition_witness :
    (1 ≤ 45 ∧ 33 < 45 ∧ (-1 : ℚ) ≤ 1 / 2 ∧ (1 / 2 : ℚ) ≤ 1) ∧
    ∃ s : ℚ, -1 ≤ s ∧ s ≤ 1 ∧ frameIndex 45 s = (33 : ℤ) :=
  ⟨⟨by decide, by decide, by norm_num, by norm_num⟩,
    (frameIndex_partition 45 33 (1 / 2) (by decide) (by decide) (by norm_num)
      (by norm_num)).2⟩

end Lentilens
